import Mathlib

/-!
Verification development for the MCMC tree-sampling core of `tree_sampler.py`
(pairtree). The program is shallowly embedded: numpy float arithmetic is
modelled over `EReal` (so `-inf`/`+inf` are representable; `NaN` is not — the
only places numpy could produce a NaN, `np.log` of a negative number and
`inf - inf`, are noted at their definitions), boolean matrices over
`Fin K → Fin K → Bool`, and the global numpy random stream as an explicitly
threaded state of an abstract type `Rg` with abstract draw primitives
(`uniform` for `np.random.uniform`, `choice2` for
`np.random.choice(K, size=2, replace=False)`, `seedRng` for `np.random.seed`).
Python `assert` statements are modelled as hypotheses of the theorems about the
asserting function, except for `assert nsamples > 0` in `_run_chain` and
`assert nchains > 0` in `sample_trees`, which are modelled by an `Option`
result (`none` = assertion failure) because claims depend on that failure.
The external phi solver (`phi_fitter.fit_phis`) is out of scope per the spec
and is passed in as an abstract function argument `fit_phis`.
-/

/-- `np.finfo(np.float).min`, the most negative finite IEEE-754 double:
`-(2 - 2^-52) * 2^1023`. -/
noncomputable def MIN_FLOAT : ℝ := -((2 - 2 ^ (-52 : ℤ)) * 2 ^ (1023 : ℕ))

/-- Modelled from the spec: `common._EPSILON` (`common.py` is not under
`src/`); §4.2 gives its value as a small positive epsilon, e.g. `1e-20`. -/
noncomputable def _EPSILON : ℝ := 1e-20

/-- `np.log` on extended reals: positive arguments give the real logarithm,
`np.log(0) = -inf`.  (On negative arguments numpy yields NaN, which `EReal`
cannot represent; we use `⊥` there.  No call site in this development ever
passes a negative argument.) -/
noncomputable def npLog (x : ℝ) : EReal :=
  if 0 < x then ((Real.log x : ℝ) : EReal) else ⊥

/-- `scipy.special.xlogy c x` (`c * log x` with the convention `xlogy 0 x = 0`)
on extended reals, as used inside the Beta log-density.  At `x = 0` with
`c ≠ 0` this is `c * (-inf)`, i.e. `-inf` for `c > 0` and `+inf` for `c < 0`.
(Negative `x` would be NaN in numpy; modelled as `⊥`, never reached since the
Beta log-density only applies it to arguments in `[0,1]`.) -/
noncomputable def npXlogy (c x : ℝ) : EReal :=
  if c = 0 then 0
  else if 0 < x then ((c * Real.log x : ℝ) : EReal)
  else if c < 0 then ⊤ else ⊥

/-- `scipy.special.betaln a b = log B(a, b)`, the log of the Beta function,
written through the Gamma function.  A plain real number; only its finiteness
matters to the development. -/
noncomputable def betaln (a b : ℝ) : ℝ :=
  Real.log (Real.Gamma a) + Real.log (Real.Gamma b) - Real.log (Real.Gamma (a + b))

/-- Modelled from the spec: `scipy.stats.beta.logpdf x a b` (scipy is an
external library; §4.2 describes the term as "the log-probability-density
under that Beta model").  Outside the support `[0,1]` the log-density is
`-inf`; inside it is `(a-1) log x + (b-1) log (1-x) - log B(a,b)` with the
`xlogy` boundary conventions. -/
noncomputable def betaLogpdf (x a b : ℝ) : EReal :=
  if x < 0 ∨ 1 < x then ⊥
  else npXlogy (a - 1) x + npXlogy (b - 1) (1 - x) + ((-(betaln a b) : ℝ) : EReal)

/-- Tree adjacency over `K` cluster-nodes: entry `(i, j)` is `true` iff `i = j`
(the diagonal marks "exists") or `i` is the parent of `j`. -/
abbrev AdjM (K : ℕ) := Fin K → Fin K → Bool

/-- Cell-fraction matrix: one value per node per tissue sample. -/
abbrev PhiM (K S : ℕ) := Fin K → Fin S → ℝ

/-- Relation tensor over `M` mutations and the `R = 4` relation categories of
the spec (`0` = co-clustered, `1` = ancestor, `2` = descendant,
`3` = unrelated / different branches). -/
abbrev Mutrel (M : ℕ) := Fin M → Fin M → Fin 4 → ℝ

/-- `i` is recorded as a parent of `j` in the adjacency: an off-diagonal `1`
entry in column `j`. -/
abbrev isParent {K : ℕ} (adj : AdjM K) (i j : Fin K) : Prop :=
  adj i j = true ∧ i ≠ j

/-- The set of recorded parents of node `j` (off-diagonal `1` entries of
column `j`). -/
def parents {K : ℕ} (adj : AdjM K) (j : Fin K) : Finset (Fin K) :=
  Finset.univ.filter (fun i => adj i j = true ∧ i ≠ j)

/-- The parent of `j` (the unique member of `parents adj j` on a valid tree;
`j` itself when the column records no parent, as for the root). -/
def par {K : ℕ} (adj : AdjM K) (j : Fin K) : Fin K :=
  if h : (parents adj j).Nonempty then (parents adj j).min' h else j

/-- The diagonal of the adjacency is all `1`. -/
abbrev diagOnes {K : ℕ} (adj : AdjM K) : Prop := ∀ i, adj i i = true

/-- Number of `1` entries in column `j`. -/
def colOneCount {K : ℕ} (adj : AdjM K) (j : Fin K) : ℕ :=
  (Finset.univ.filter (fun i => adj i j = true)).card

/-- Column-sum pattern of a valid tree: the root column `0` holds exactly one
`1` (self), every other column exactly two (self + parent). -/
abbrev validCols {K : ℕ} [NeZero K] (adj : AdjM K) : Prop :=
  colOneCount adj 0 = 1 ∧ ∀ j : Fin K, j ≠ 0 → colOneCount adj j = 2

/-- Node `j` reaches the root by iterating the parent map. -/
def reachesRoot {K : ℕ} [NeZero K] (adj : AdjM K) (j : Fin K) : Prop :=
  ∃ n : ℕ, (par adj)^[n] j = 0

/-- The tree-validity invariant of §3: diagonal all `1`, root column exactly
one `1`, other columns exactly two `1`s, and every node reaches the root
(acyclic arborescence rooted at node `0`). -/
def validTree {K : ℕ} [NeZero K] (adj : AdjM K) : Prop :=
  diagOnes adj ∧ validCols adj ∧ ∀ j, reachesRoot adj j

/-- `i` is a strict ancestor of `j`: some positive number of parent steps leads
from `j` up to `i`, never stepping from the root meanwhile. -/
def isAnc {K : ℕ} [NeZero K] (adj : AdjM K) (i j : Fin K) : Prop :=
  ∃ n : ℕ, 1 ≤ n ∧ (par adj)^[n] j = i ∧ ∀ t < n, (par adj)^[t] j ≠ 0

/-- Bounded transitive closure of the parent relation: `i` is reached from `j`
by between `1` and `fuel` upward parent steps. -/
def ancWithin {K : ℕ} (adj : AdjM K) : ℕ → Fin K → Fin K → Bool
  | 0, _, _ => false
  | n + 1, i, j =>
    decide (isParent adj i j) ||
      decide (∃ k, isParent adj k j ∧ ancWithin adj n i k = true)

/-- Modelled from the spec: `common.make_ancestral_from_adj` (`common.py` is
not under `src/`).  §3: "a derived K×K boolean matrix where entry (i,j) is
true iff i is a strict ancestor of j in the tree", computed here as the
transitive closure of the parent relation, which on a `K`-node tree is
exhausted within `K` steps. -/
def make_ancestral_from_adj {K : ℕ} (adj : AdjM K) : Fin K → Fin K → Bool :=
  fun i j => ancWithin adj K i j

/-- Relabelling of the nodes of an adjacency by a permutation, with the
diagonal forced to `1`; the `anc[B,A]` branch of `_permute_adj` is proved
equal to this with the transposition of `A` and `B`. -/
def relabelDiag {K : ℕ} (σ : Equiv.Perm (Fin K)) (adj : AdjM K) : AdjM K :=
  fun i j => if i = j then true else adj (σ i) (σ j)

/-- `_init_cluster_adj_branching`: identity matrix with row 0 set to all `1`
(every non-root node a direct child of the root). -/
def _init_cluster_adj_branching (K : ℕ) : AdjM K :=
  fun i j => decide (i.1 = 0) || decide (i = j)

/-- `_permute_adj`, the Tree Mutation Operator, with the random draw
`A, B = np.random.choice(K, size=2, replace=False)` lifted to arguments (the
edit is deterministic given `(A, B)`; its `assert` preconditions are stated as
hypotheses of the theorems about it).  `B = 0` returns the input unchanged;
otherwise the diagonal is zeroed and either the positions of `A` and `B` are
swapped (rows exchanged, then both columns overwritten with the original
columns exchanged, the direct `B→A` edge being removed first and restored as
`A→B`) when `B` is an ancestor of `A`, or `B` is re-parented under `A`;
finally the diagonal is restored to `1`. -/
def _permute_adj {K : ℕ} [NeZero K] (adj : AdjM K) (A B : Fin K) : AdjM K :=
  if B = 0 then adj
  else
    let adj0 : AdjM K := fun i j => if i = j then false else adj i j
    if make_ancestral_from_adj adj B A then
      let adjBA := adj0 B A
      let adj1 : AdjM K := fun i j => if i = B ∧ j = A then false else adj0 i j
      let adj2 : AdjM K := fun i j =>
        if i = A then adj1 B j else if i = B then adj1 A j else adj1 i j
      let adj3 : AdjM K := fun i j =>
        if j = A then adj1 i B else if j = B then adj1 i A else adj2 i j
      let adj4 : AdjM K := fun i j =>
        if adjBA = true ∧ i = A ∧ j = B then true else adj3 i j
      fun i j => if i = j then true else adj4 i j
    else
      let adj2 : AdjM K := fun i j => if j = B then false else adj0 i j
      let adj3 : AdjM K := fun i j => if i = A ∧ j = B then true else adj2 i j
      fun i j => if i = j then true else adj3 i j

/-- Modelled from the spec (§4.1): the relation category implied by the tree
for a mutation pair — co-clustered when in the same cluster, ancestor /
descendant by strict ancestry of their clusters, otherwise unrelated. -/
def relOf {K M : ℕ} (adj : AdjM K) (cl : Fin M → Fin K) (i j : Fin M) : Fin 4 :=
  if cl i = cl j then 0
  else if make_ancestral_from_adj adj (cl i) (cl j) then 1
  else if make_ancestral_from_adj adj (cl j) (cl i) then 2
  else 3

/-- Modelled from the spec: `mutrel.make_mutrel_tensor_from_cluster_adj`
(`mutrel.py` is not under `src/`).  §4.1: the M×M×R tensor that marks, for
each mutation pair, exactly the one relation slice implied by the tree; the
partition of mutations into clusters is carried as the cluster-membership map
`cl`. -/
def make_mutrel_tensor_from_cluster_adj {K M : ℕ} (adj : AdjM K)
    (cl : Fin M → Fin K) : Mutrel M :=
  fun i j r => if r = relOf adj cl i j then 1 else 0

/-- `_calc_llh_mutrel`: elementwise fit `1 - |observed - derived|`, floored at
`_EPSILON`, summed in log. -/
noncomputable def _calc_llh_mutrel {K M : ℕ} (cluster_adj : AdjM K)
    (data_mutrel : Mutrel M) (cl : Fin M → Fin K) : EReal :=
  ∑ i : Fin M, ∑ j : Fin M, ∑ r : Fin 4,
    npLog (max _EPSILON
      (1 - |data_mutrel i j r - make_mutrel_tensor_from_cluster_adj cluster_adj cl i j r|))

/-- `calc_beta_params`: per-supervariant Beta shape parameters
`alpha = 2V + 1`, `beta = max 1 (R - V + 1)` from variant/reference read
counts (one supervariant per non-root node; the `omega_v = 0.5` diploidy
assertion of the source is a fact about its inputs with no computational
content here). -/
noncomputable def calc_beta_params {n S : ℕ} (V R : Fin n → Fin S → ℤ) :
    (Fin n → Fin S → ℝ) × (Fin n → Fin S → ℝ) :=
  (fun k s => 2 * (V k s : ℝ) + 1, fun k s => max 1 ((R k s : ℝ) - (V k s : ℝ) + 1))

/-- Index shift realising the numpy slice `phi[1:, :]`. -/
def liftIdx {K : ℕ} (i : Fin (K - 1)) : Fin K :=
  ⟨i.1 + 1, by omega⟩

/-- `_calc_llh_phi`: Beta log-density of every non-root cell fraction, summed,
then clamped below at `MIN_FLOAT` (`np.maximum(phi_llh, MIN_FLOAT)`).  The
source's `assert np.allclose(1, phi[0])` and `assert not np.isnan(phi_llh)`
are stated as hypotheses of the theorems about it. -/
noncomputable def _calc_llh_phi {K S : ℕ} (phi : PhiM K S)
    (alpha beta : Fin (K - 1) → Fin S → ℝ) : EReal :=
  max (∑ k : Fin (K - 1), ∑ s : Fin S,
        betaLogpdf (phi (liftIdx k) s) (alpha k s) (beta k s))
    ((MIN_FLOAT : ℝ) : EReal)

/-- One iteration of the `_run_metropolis` loop: propose via `_sample_adj`,
evaluate phi and the log-likelihood of the candidate, draw `U`, and accept iff
`new_llh - old_llh >= np.log(U)`, otherwise keep the previous triple.  The
state pairs the current (adjacency, phi, llh) triple with the random state. -/
noncomputable def metStep {A P Rg : Type} (calc_llh : A → P → EReal)
    (calc_phi : A → P) (sample_adj : A → Rg → A × Rg)
    (uniform : Rg → ℝ × Rg) (s : (A × P × EReal) × Rg) : (A × P × EReal) × Rg :=
  let old := s.1
  let t1 := sample_adj old.1 s.2
  let newP := calc_phi t1.1
  let newL := calc_llh t1.1 newP
  let t2 := uniform t1.2
  (if npLog t2.1 ≤ newL - old.2.2 then (t1.1, newP, newL) else old, t2.2)

/-- The `for I in range(1, nsamples)` loop of `_run_metropolis`: `n` repeats of
`metStep`, listing the (possibly repeated) triple appended at each iteration
in order, together with the final random state. -/
noncomputable def metropolisSteps {A P Rg : Type} (calc_llh : A → P → EReal)
    (calc_phi : A → P) (sample_adj : A → Rg → A × Rg)
    (uniform : Rg → ℝ × Rg) : ℕ → (A × P × EReal) × Rg → List (A × P × EReal) × Rg
  | 0, s => ([], s.2)
  | n + 1, s =>
    let s1 := metStep calc_llh calc_phi sample_adj uniform s
    let rest := metropolisSteps calc_llh calc_phi sample_adj uniform n s1
    (s1.1 :: rest.1, rest.2)

/-- `metStep` iterated `n` times — the canonical "apply the proposal + accept
test `n` times in sequence" combinator that the multistep proposal is related
to. -/
noncomputable def metIter {A P Rg : Type} (calc_llh : A → P → EReal)
    (calc_phi : A → P) (sample_adj : A → Rg → A × Rg)
    (uniform : Rg → ℝ × Rg) (n : ℕ) (s : (A × P × EReal) × Rg) :
    (A × P × EReal) × Rg :=
  (metStep calc_llh calc_phi sample_adj uniform)^[n] s

/-- `_run_metropolis`: sample 0 is the initial tree with its phi and
log-likelihood; then `nsamples - 1` accept/reject iterations.  The Python
function's three parallel lists are fused into one list of triples; the
`progress_queue` reporting has no algorithmic content and is dropped. -/
noncomputable def _run_metropolis {A P Rg : Type} (nsamples : ℕ) (init : A)
    (calc_llh : A → P → EReal) (calc_phi : A → P)
    (sample_adj : A → Rg → A × Rg) (uniform : Rg → ℝ × Rg) (rng : Rg) :
    List (A × P × EReal) × Rg :=
  let p0 := calc_phi init
  let l0 := calc_llh init p0
  let r := metropolisSteps calc_llh calc_phi sample_adj uniform (nsamples - 1)
    ((init, p0, l0), rng)
  ((init, p0, l0) :: r.1, r.2)

/-- The closure `__calc_llh_phi` of `_run_chain`: the log-likelihood handed to
the outer Metropolis loop, `_calc_llh_phi(phi, alpha, beta)` (it ignores the
adjacency). -/
noncomputable def __calc_llh_phi {K S : ℕ} (alpha beta : Fin (K - 1) → Fin S → ℝ) :
    AdjM K → PhiM K S → EReal :=
  fun _ phi => _calc_llh_phi phi alpha beta

/-- The closure `__calc_llh_mutrel` of `_run_chain`: the log-likelihood handed
to the inner (multistep-proposal) Metropolis loop; it ignores phi (which is
`None` there). -/
noncomputable def __calc_llh_mutrel {K M : ℕ} (data_mutrel : Mutrel M)
    (cl : Fin M → Fin K) : AdjM K → Unit → EReal :=
  fun adj _ => _calc_llh_mutrel adj data_mutrel cl

/-- The closure `__calc_phi_noop` of `_run_chain` (returns `None`). -/
def __calc_phi_noop {K : ℕ} : AdjM K → Unit := fun _ => ()

/-- `_permute_adj` as a proposal consuming the random pair draw
`np.random.choice(K, size=2, replace=False)` from the threaded random
state. -/
def permuteDraw {K : ℕ} [NeZero K] {Rg : Type}
    (choice2 : Rg → (Fin K × Fin K) × Rg) : AdjM K → Rg → AdjM K × Rg :=
  fun adj rng => (_permute_adj adj (choice2 rng).1.1 (choice2 rng).1.2, (choice2 rng).2)

/-- The closure `__permute_adj_multistep` of `_run_chain`: run the inner
Metropolis chain for `nsteps` samples starting from the old adjacency, keyed
on the mutrel log-likelihood with no phi computation, and return the last
sampled tree (`chosen_idx = len(adj) - 1`). -/
noncomputable def __permute_adj_multistep {K M : ℕ} [NeZero K] {Rg : Type}
    (data_mutrel : Mutrel M) (cl : Fin M → Fin K)
    (choice2 : Rg → (Fin K × Fin K) × Rg) (uniform : Rg → ℝ × Rg)
    (nsteps : ℕ) (oldadj : AdjM K) (rng : Rg) : AdjM K × Rg :=
  let r := _run_metropolis nsteps oldadj (__calc_llh_mutrel data_mutrel cl)
    __calc_phi_noop (permuteDraw choice2) uniform rng
  ((r.1.getLastD (oldadj, (), 0)).1, r.2)

/-- `_run_chain`: seed the random state with `seed % 2**32`, compute the Beta
shape parameters, start from the branching initial tree, and run the outer
Metropolis loop with the phi-keyed log-likelihood, the external solver as
`calc_phi`, and the multistep proposal.  `none` models the
`assert nsamples > 0` failure.  The `phi_iterations` argument only
parameterises the external solver and is absorbed into `fit_phis`. -/
noncomputable def _run_chain {K S M : ℕ} [NeZero K] {Rg : Type}
    (fit_phis : AdjM K → PhiM K S) (data_mutrel : Mutrel M)
    (V R : Fin (K - 1) → Fin S → ℤ) (cl : Fin M → Fin K)
    (nsamples tree_perturbations : ℕ) (seed : ℤ) (seedRng : ℤ → Rg)
    (choice2 : Rg → (Fin K × Fin K) × Rg) (uniform : Rg → ℝ × Rg) :
    Option (List (AdjM K × PhiM K S × EReal)) :=
  if nsamples = 0 then none
  else
    let rng0 := seedRng (seed % 2 ^ 32)
    let ab := calc_beta_params V R
    let r := _run_metropolis nsamples (_init_cluster_adj_branching K)
      (__calc_llh_phi ab.1 ab.2) fit_phis
      (__permute_adj_multistep data_mutrel cl choice2 uniform tree_perturbations)
      uniform rng0
    some r.1

/-- `sample_trees`: run `nchains` chains, chain `C` with
`trees_per_chain + burnin_per_chain` samples and seed `seed + C + 1`, then
drop the first `burnin_per_chain` samples of each chain and concatenate in
chain order.  Only the sequential path is modelled: the process-pool path
submits the identical per-chain calls and collects their results in the same
chain-index order, so its merged result is the same list.  `none` models the
`assert nchains > 0` failure (and, propagated, the per-chain
`assert nsamples > 0`). -/
noncomputable def sample_trees {K S M : ℕ} [NeZero K] {Rg : Type}
    (fit_phis : AdjM K → PhiM K S) (data_mutrel : Mutrel M)
    (V R : Fin (K - 1) → Fin S → ℤ) (cl : Fin M → Fin K)
    (trees_per_chain burnin_per_chain nchains tree_perturbations : ℕ)
    (seed : ℤ) (seedRng : ℤ → Rg) (choice2 : Rg → (Fin K × Fin K) × Rg)
    (uniform : Rg → ℝ × Rg) : Option (List (AdjM K × PhiM K S × EReal)) :=
  if nchains = 0 then none
  else
    ((List.range nchains).mapM fun C : ℕ =>
        _run_chain fit_phis data_mutrel V R cl
          (trees_per_chain + burnin_per_chain) tree_perturbations
          (seed + (C : ℤ) + 1) seedRng choice2 uniform).map
      fun results => results.flatMap fun r => r.drop burnin_per_chain

/-! Concrete instances used by witnesses and counterexamples. -/

/-- A 2-node tree: root `0` with child `1`. -/
def exAdj2 : AdjM 2 := ![![true, true], ![false, true]]

/-- A 3-node linear tree `0 → 1 → 2`. -/
def exChain3 : AdjM 3 := ![![true, true, false], ![false, true, true], ![false, false, true]]

/-- A counting random state over `ℕ`: each pair draw returns `(0, 2)` and
advances the counter. -/
def exChoice2 : ℕ → (Fin 3 × Fin 3) × ℕ := fun n => ((0, 2), n + 1)

/-- A counting uniform draw over `ℕ`: always `1/2`, advancing the counter. -/
noncomputable def exUniform : ℕ → ℝ × ℕ := fun n => (1 / 2, n + 1)

/-- The all-zero observed relation tensor on `M = 1` mutation. -/
def exData1 : Mutrel 1 := fun _ _ _ => 0

/-- Trivial solver output for `K = 1`, `S = 1` (root fraction 1). -/
def exPhi1 : PhiM 1 1 := fun _ _ => 1

/-- A phi matrix for `K = 2`, `S = 1` with the non-root fraction `0`. -/
def exPhi2 : PhiM 2 1 := fun k _ => if k = 0 then 1 else 0

/-- Shape parameter `alpha = 1/2` (strictly positive but `< 1`). -/
noncomputable def exAlphaHalf : Fin 1 → Fin 1 → ℝ := fun _ _ => 1 / 2

/-- Shape parameter `beta = 1`. -/
def exBetaOne : Fin 1 → Fin 1 → ℝ := fun _ _ => 1

/-- Trivial unit-state random primitives for runs whose draws are never
consumed. -/
def exSeedRng : ℤ → Unit := fun _ => ()

/-- Unit-state pair draw on one node. -/
def exChoice2u : Unit → (Fin 1 × Fin 1) × Unit := fun _ => ((0, 0), ())

/-- Unit-state uniform draw. -/
noncomputable def exUniformu : Unit → ℝ × Unit := fun _ => (1 / 2, ())

/-- Trivial solver for `K = 1`, `S = 1`. -/
def exFit1 : AdjM 1 → PhiM 1 1 := fun _ => exPhi1

section TreeLemmas

variable {K : ℕ} [NeZero K]

omit [NeZero K] in
lemma parents_eq_erase (adj : AdjM K) (j : Fin K) :
    parents adj j = (Finset.univ.filter (fun i => adj i j = true)).erase j := by
  ext i
  simp [parents, Finset.mem_erase, and_comm]

lemma parents_card (adj : AdjM K) (hd : diagOnes adj) (hc : validCols adj)
    (j : Fin K) (hj : j ≠ 0) : (parents adj j).card = 1 := by
  have hmem : j ∈ Finset.univ.filter (fun i => adj i j = true) := by
    simp [hd j]
  rw [parents_eq_erase, Finset.card_erase_of_mem hmem]
  have := hc.2 j hj
  unfold colOneCount at this
  omega

lemma parents_root (adj : AdjM K) (hd : diagOnes adj) (hc : validCols adj) :
    parents adj 0 = ∅ := by
  have h1 : Finset.univ.filter (fun i => adj i (0 : Fin K) = true) = {0} := by
    have hmem : (0 : Fin K) ∈ Finset.univ.filter (fun i => adj i (0 : Fin K) = true) := by
      simp [hd 0]
    have hcard := hc.1
    unfold colOneCount at hcard
    obtain ⟨a, ha⟩ := Finset.card_eq_one.1 hcard
    rw [ha] at hmem ⊢
    simp at hmem
    rw [hmem]
  rw [parents_eq_erase, h1]
  simp

lemma par_root (adj : AdjM K) (hd : diagOnes adj) (hc : validCols adj) :
    par adj 0 = 0 := by
  unfold par
  rw [parents_root adj hd hc]
  simp

lemma par_iterate_root (adj : AdjM K) (hd : diagOnes adj) (hc : validCols adj)
    (n : ℕ) : (par adj)^[n] (0 : Fin K) = 0 :=
  Function.iterate_fixed (par_root adj hd hc) n

lemma parents_eq_singleton (adj : AdjM K) (hd : diagOnes adj) (hc : validCols adj)
    (j : Fin K) (hj : j ≠ 0) : parents adj j = {par adj j} := by
  have hcard := parents_card adj hd hc j hj
  have hne : (parents adj j).Nonempty := by
    rw [← Finset.card_pos, hcard]; omega
  have hmem : par adj j ∈ parents adj j := by
    unfold par
    rw [dif_pos hne]
    exact Finset.min'_mem _ _
  refine Finset.eq_singleton_iff_unique_mem.2 ⟨hmem, ?_⟩
  intro x hx
  exact Finset.card_le_one.1 (le_of_eq hcard) x hx (par adj j) hmem

lemma par_isParent (adj : AdjM K) (hd : diagOnes adj) (hc : validCols adj)
    (j : Fin K) (hj : j ≠ 0) : isParent adj (par adj j) j := by
  have h := parents_eq_singleton adj hd hc j hj
  have : par adj j ∈ parents adj j := by rw [h]; simp
  simpa [parents] using this

lemma isParent_unique (adj : AdjM K) (hd : diagOnes adj) (hc : validCols adj)
    {i j : Fin K} (h : isParent adj i j) : par adj j = i := by
  have hj : j ≠ 0 := by
    intro h0
    subst h0
    have : i ∈ parents adj 0 := by simpa [parents] using h
    rw [parents_root adj hd hc] at this
    simp at this
  have hs := parents_eq_singleton adj hd hc j hj
  have : i ∈ parents adj j := by simpa [parents] using h
  rw [hs] at this
  exact (Finset.mem_singleton.1 this).symm

lemma isParent_ne_root (adj : AdjM K) (hd : diagOnes adj) (hc : validCols adj)
    {i j : Fin K} (h : isParent adj i j) : j ≠ 0 := by
  intro h0
  subst h0
  have : i ∈ parents adj 0 := by simpa [parents] using h
  rw [parents_root adj hd hc] at this
  simp at this

lemma ancWithin_imp_isAnc (adj : AdjM K) (hd : diagOnes adj) (hc : validCols adj)
    (f : ℕ) : ∀ i j, ancWithin adj f i j = true → isAnc adj i j := by
  induction f with
  | zero => intro i j h; simp [ancWithin] at h
  | succ n ih =>
    intro i j h
    simp only [ancWithin, Bool.or_eq_true, decide_eq_true_eq] at h
    rcases h with h | ⟨k, hk, hanc⟩
    · have hj : j ≠ 0 := isParent_ne_root adj hd hc h
      refine ⟨1, le_refl 1, ?_, ?_⟩
      · simpa using isParent_unique adj hd hc h
      · intro t ht
        interval_cases t
        simpa using hj
    · have hj : j ≠ 0 := isParent_ne_root adj hd hc hk
      have hpk : par adj j = k := isParent_unique adj hd hc hk
      obtain ⟨n', hn1, hit, hcond⟩ := ih i k hanc
      refine ⟨n' + 1, by omega, ?_, ?_⟩
      · rw [Function.iterate_succ_apply, hpk, hit]
      · intro t ht
        cases t with
        | zero => simpa using hj
        | succ s =>
          rw [Function.iterate_succ_apply, hpk]
          exact hcond s (by omega)

lemma isAnc_chain_imp_ancWithin (adj : AdjM K) (hd : diagOnes adj)
    (hc : validCols adj) (i : Fin K) :
    ∀ n, 1 ≤ n → ∀ j f, n ≤ f → (par adj)^[n] j = i →
      (∀ t < n, (par adj)^[t] j ≠ 0) → ancWithin adj f i j = true := by
  intro n
  induction n with
  | zero => omega
  | succ m ih =>
    intro _ j f hf hit hcond
    have hj : j ≠ 0 := by simpa using hcond 0 (by omega)
    have hpar : isParent adj (par adj j) j := par_isParent adj hd hc j hj
    obtain ⟨f', rfl⟩ : ∃ f', f = f' + 1 := ⟨f - 1, by omega⟩
    by_cases hm : m = 0
    · subst hm
      have hit1 : par adj j = i := by simpa using hit
      simp only [ancWithin, Bool.or_eq_true, decide_eq_true_eq]
      left
      rw [← hit1]
      exact hpar
    · simp only [ancWithin, Bool.or_eq_true, decide_eq_true_eq]
      right
      refine ⟨par adj j, hpar, ?_⟩
      apply ih (by omega) (par adj j) f' (by omega)
      · rw [← Function.iterate_succ_apply]
        exact hit
      · intro t ht
        rw [← Function.iterate_succ_apply]
        exact hcond (t + 1) (by omega)

lemma rootDist_lt (adj : AdjM K) (j : Fin K) (h : ∃ n, (par adj)^[n] j = 0) :
    Nat.find h < K := by
  set m := Nat.find h with hm
  have hP : (par adj)^[m] j = 0 := Nat.find_spec h
  have hinj : Set.InjOn (fun t => (par adj)^[t] j) (Finset.range (m + 1)) := by
    intro a ha b hb hab
    have hab2 : (par adj)^[a] j = (par adj)^[b] j := hab
    simp only [Finset.coe_range, Set.mem_Iio] at ha hb
    by_contra hne
    rcases Nat.lt_or_ge a b with hlt | hge
    · have : (par adj)^[a + (m - b)] j = 0 := by
        rw [Nat.add_comm, Function.iterate_add_apply, hab2,
          ← Function.iterate_add_apply]
        have : m - b + b = m := by omega
        rw [this, hP]
      exact Nat.find_min h (by omega) this
    · have hlt : b < a := by omega
      have : (par adj)^[b + (m - a)] j = 0 := by
        rw [Nat.add_comm, Function.iterate_add_apply, ← hab2,
          ← Function.iterate_add_apply]
        have : m - a + a = m := by omega
        rw [this, hP]
      exact Nat.find_min h (by omega) this
  have hcard := Finset.card_le_card_of_injOn (fun t => (par adj)^[t] j)
    (fun a _ => Finset.mem_univ _) hinj
  simp only [Finset.card_range, Finset.card_univ, Fintype.card_fin] at hcard
  omega

lemma isAnc_imp_ancestral (adj : AdjM K) (hv : validTree adj) {i j : Fin K}
    (h : isAnc adj i j) : make_ancestral_from_adj adj i j = true := by
  obtain ⟨hd, hc, hr⟩ := hv
  obtain ⟨n, hn1, hit, hcond⟩ := h
  have hreach : ∃ m, (par adj)^[m] j = 0 := hr j
  have hnm : n ≤ Nat.find hreach := by
    by_contra hgt
    exact hcond (Nat.find hreach) (by omega) (Nat.find_spec hreach)
  have hmK : Nat.find hreach < K := rootDist_lt adj j hreach
  exact isAnc_chain_imp_ancWithin adj hd hc i n hn1 j K (by omega) hit hcond

lemma ancestral_iff_isAnc (adj : AdjM K) (hv : validTree adj) (i j : Fin K) :
    make_ancestral_from_adj adj i j = true ↔ isAnc adj i j :=
  ⟨ancWithin_imp_isAnc adj hv.1 hv.2.1 K i j, isAnc_imp_ancestral adj hv⟩

lemma isAnc_irrefl (adj : AdjM K) (hv : validTree adj) (j : Fin K) :
    ¬isAnc adj j j := by
  obtain ⟨hd, hc, hr⟩ := hv
  rintro ⟨n, hn1, hit, hcond⟩
  have hj : j ≠ 0 := by simpa using hcond 0 (by omega)
  obtain ⟨m, hm⟩ := hr j
  have hper : ∀ q, (par adj)^[q * n] j = j := by
    intro q
    induction q with
    | zero => simp
    | succ p ihp =>
      rw [Nat.succ_mul, Function.iterate_add_apply, hit, ihp]
  have h0 : (par adj)^[m * n] j = 0 := by
    have hmn : m ≤ m * n := Nat.le_mul_of_pos_right m (by omega)
    have : (par adj)^[(m * n - m) + m] j = 0 := by
      rw [Function.iterate_add_apply, hm, par_iterate_root adj hd hc]
    rwa [Nat.sub_add_cancel hmn] at this
  rw [hper m] at h0
  exact hj h0

lemma isAnc_trans (adj : AdjM K) {i j k : Fin K}
    (h1 : isAnc adj i j) (h2 : isAnc adj j k) : isAnc adj i k := by
  obtain ⟨a, ha1, hita, hconda⟩ := h1
  obtain ⟨b, hb1, hitb, hcondb⟩ := h2
  refine ⟨a + b, by omega, ?_, ?_⟩
  · rw [Function.iterate_add_apply, hitb, hita]
  · intro t ht
    rcases Nat.lt_or_ge t b with hlt | hge
    · exact hcondb t hlt
    · have : t = (t - b) + b := by omega
      rw [this, Function.iterate_add_apply, hitb]
      exact hconda (t - b) (by omega)

lemma not_isAnc_to_root (adj : AdjM K) (i : Fin K) : ¬isAnc adj i 0 := by
  rintro ⟨n, hn1, _, hcond⟩
  exact hcond 0 (by omega) rfl

lemma isAnc_root (adj : AdjM K) (hv : validTree adj) {j : Fin K} (hj : j ≠ 0) :
    isAnc adj 0 j := by
  obtain ⟨hd, hc, hr⟩ := hv
  have hreach : ∃ m, (par adj)^[m] j = 0 := hr j
  refine ⟨Nat.find hreach, ?_, Nat.find_spec hreach, ?_⟩
  · rcases Nat.eq_zero_or_pos (Nat.find hreach) with h0 | h1
    · exfalso
      have := Nat.find_spec hreach
      rw [h0] at this
      exact hj this
    · omega
  · intro t ht
    exact Nat.find_min hreach ht

lemma isParent_isAnc (adj : AdjM K) (hd : diagOnes adj) (hc : validCols adj)
    {i j : Fin K} (h : isParent adj i j) : isAnc adj i j := by
  have hj : j ≠ 0 := isParent_ne_root adj hd hc h
  refine ⟨1, le_refl 1, ?_, ?_⟩
  · simpa using isParent_unique adj hd hc h
  · intro t ht
    interval_cases t
    simpa using hj

end TreeLemmas

section PermuteLemmas

variable {K : ℕ} [NeZero K]

lemma permute_adj_root_target (adj : AdjM K) (A : Fin K) :
    _permute_adj adj A 0 = adj := by
  unfold _permute_adj
  rw [if_pos rfl]

lemma permute_adj_move_shape (adj : AdjM K) (A B : Fin K) (hB : B ≠ 0)
    (hanc : make_ancestral_from_adj adj B A = false) (i j : Fin K) :
    _permute_adj adj A B i j =
      (if i = j then true else if j = B then decide (i = A) else adj i j) := by
  simp only [_permute_adj, if_neg hB, hanc, Bool.false_eq_true, if_false]
  by_cases hij : i = j
  · simp [hij]
  · by_cases hjB : j = B
    · by_cases hiA : i = A <;> simp [hij, hjB, hiA]
    · simp [hij, hjB]

lemma permute_adj_move_valid (adj : AdjM K) (A B : Fin K) (hv : validTree adj)
    (hAB : A ≠ B) (hB : B ≠ 0)
    (hanc : make_ancestral_from_adj adj B A = false) :
    validTree (_permute_adj adj A B) := by
  obtain ⟨hd, hc, hr⟩ := hv
  have hshape := permute_adj_move_shape adj A B hB hanc
  set r := _permute_adj adj A B with hrdef
  have hdr : diagOnes r := by
    intro i
    rw [hshape]
    simp
  have hcolB : Finset.univ.filter (fun i => r i B = true) = {B, A} := by
    ext i
    simp only [Finset.mem_filter, Finset.mem_univ, true_and, hshape,
      Finset.mem_insert, Finset.mem_singleton]
    by_cases hiB : i = B
    · simp [hiB]
    · simp [hiB]
  have hcolBcard : colOneCount r B = 2 := by
    unfold colOneCount
    rw [hcolB, Finset.card_insert_of_not_mem
      (by intro hm; exact hAB (Finset.mem_singleton.1 hm).symm),
      Finset.card_singleton]
  have hcolj : ∀ j, j ≠ B → colOneCount r j = colOneCount adj j := by
    intro j hjB
    unfold colOneCount
    congr 1
    ext i
    simp only [Finset.mem_filter, Finset.mem_univ, true_and, hshape]
    by_cases hij : i = j
    · simp [hij, hd j]
    · simp [hij, hjB]
  have hcr : validCols r := by
    constructor
    · rw [hcolj 0 (fun h => hB h.symm)]
      exact hc.1
    · intro j hj
      by_cases hjB : j = B
      · rw [hjB]; exact hcolBcard
      · rw [hcolj j hjB]; exact hc.2 j hj
  have hparents_other : ∀ j, j ≠ B → parents r j = parents adj j := by
    intro j hjB
    unfold parents
    ext i
    simp only [Finset.mem_filter, Finset.mem_univ, true_and, hshape]
    by_cases hij : i = j
    · simp [hij]
    · simp [hij, hjB]
  have hpar_other : ∀ j, j ≠ B → par r j = par adj j := by
    intro j hjB
    unfold par
    rw [hparents_other j hjB]
  have hparentsB : parents r B = {A} := by
    unfold parents
    ext i
    simp only [Finset.mem_filter, Finset.mem_univ, true_and, hshape,
      Finset.mem_singleton]
    by_cases hiB : i = B
    · simp [hiB]
      exact fun h => hAB h.symm
    · constructor
      · rintro ⟨h1, _⟩
        simpa [hiB] using h1
      · rintro rfl
        simp [hiB, fun h => hAB h]
  have hparB : par r B = A := by
    unfold par
    rw [hparentsB]
    rw [dif_pos (Finset.singleton_nonempty A)]
    exact Finset.min'_singleton A
  have hnotanc : ¬isAnc adj B A := by
    intro h
    rw [← ancestral_iff_isAnc adj ⟨hd, hc, hr⟩ B A] at h
    rw [hanc] at h
    exact Bool.false_ne_true h
  -- A's path to the root never passes through B and is preserved.
  have hreachEx : ∃ n, (par adj)^[n] A = 0 := hr A
  have hpres : ∀ t, t ≤ Nat.find hreachEx → (par r)^[t] A = (par adj)^[t] A := by
    intro t
    induction t with
    | zero => intro _; rfl
    | succ s ihs =>
      intro hs
      have hsm : s < Nat.find hreachEx := by omega
      have hsB : (par adj)^[s] A ≠ B := by
        intro hB'
        rcases Nat.eq_zero_or_pos s with h0 | h1
        · rw [h0] at hB'
          exact hAB hB'
        · exact hnotanc ⟨s, by omega, hB', fun u hu =>
            Nat.find_min hreachEx (by omega)⟩
      rw [Function.iterate_succ_apply', Function.iterate_succ_apply',
        ihs (by omega), hpar_other _ hsB]
  have hreachA : reachesRoot r A :=
    ⟨Nat.find hreachEx, by
      rw [hpres (Nat.find hreachEx) le_rfl]
      exact Nat.find_spec hreachEx⟩
  have haux : ∀ m, ∀ j : Fin K, (par adj)^[m] j = 0 → reachesRoot r j := by
    intro m
    induction m using Nat.strong_induction_on with
    | _ m ihm =>
      intro j hj0
      by_cases hj : j = 0
      · subst hj
        exact ⟨0, rfl⟩
      · have hm1 : m ≠ 0 := by
          rintro rfl
          exact hj hj0
        by_cases hjB : j = B
        · subst hjB
          obtain ⟨nA, hnA⟩ := hreachA
          exact ⟨nA + 1, by rw [Function.iterate_succ_apply, hparB, hnA]⟩
        · have hstep : (par adj)^[m - 1] (par adj j) = 0 := by
            have h2 : (par adj)^[m - 1 + 1] j = 0 := by
              have hmm : m - 1 + 1 = m := by omega
              rw [hmm]
              exact hj0
            rw [Function.iterate_succ_apply] at h2
            exact h2
          obtain ⟨n1, hn1⟩ := ihm (m - 1) (by omega) (par adj j) hstep
          exact ⟨n1 + 1, by rw [Function.iterate_succ_apply, hpar_other j hjB, hn1]⟩
  refine ⟨hdr, hcr, fun j => ?_⟩
  obtain ⟨m, hm⟩ := hr j
  exact haux m j hm

end PermuteLemmas

section SwapLemmas

variable {K : ℕ} [NeZero K]

omit [NeZero K] in
lemma relabelDiag_col (σ : Equiv.Perm (Fin K)) (adj : AdjM K) (hd : diagOnes adj)
    (j : Fin K) :
    Finset.univ.filter (fun i => relabelDiag σ adj i j = true) =
      (Finset.univ.filter (fun i => adj i (σ j) = true)).image σ.symm := by
  ext i
  simp only [Finset.mem_filter, Finset.mem_univ, true_and, Finset.mem_image,
    relabelDiag]
  constructor
  · intro h
    refine ⟨σ i, ?_, by simp⟩
    by_cases hij : i = j
    · subst hij
      exact hd (σ i)
    · simpa [hij] using h
  · rintro ⟨x, hx, rfl⟩
    by_cases hij : σ.symm x = j
    · simp [hij]
    · have hsx : σ (σ.symm x) = x := by simp
      simp [hij, hsx, hx]

lemma relabelDiag_colOneCount (σ : Equiv.Perm (Fin K)) (adj : AdjM K)
    (hd : diagOnes adj) (j : Fin K) :
    colOneCount (relabelDiag σ adj) j = colOneCount adj (σ j) := by
  unfold colOneCount
  rw [relabelDiag_col σ adj hd j]
  exact Finset.card_image_of_injective _ σ.symm.injective

omit [NeZero K] in
lemma relabelDiag_parents (σ : Equiv.Perm (Fin K)) (adj : AdjM K) (j : Fin K) :
    parents (relabelDiag σ adj) j = (parents adj (σ j)).image σ.symm := by
  ext i
  simp only [parents, Finset.mem_filter, Finset.mem_univ, true_and,
    Finset.mem_image, relabelDiag]
  constructor
  · rintro ⟨h1, h2⟩
    refine ⟨σ i, ⟨by simpa [h2] using h1, fun he => h2 (σ.injective he)⟩, by simp⟩
  · rintro ⟨x, ⟨hx1, hx2⟩, rfl⟩
    have hsx : σ (σ.symm x) = x := by simp
    have hne : σ.symm x ≠ j := by
      intro he
      exact hx2 (by rw [← hsx, he])
    exact ⟨by simpa [hne, hsx] using hx1, hne⟩

lemma relabelDiag_par (σ : Equiv.Perm (Fin K)) (adj : AdjM K) (hd : diagOnes adj)
    (hc : validCols adj) (j : Fin K) :
    par (relabelDiag σ adj) j = σ.symm (par adj (σ j)) := by
  by_cases hj : σ j = 0
  · have h1 : parents adj (σ j) = ∅ := by
      rw [hj]
      exact parents_root adj hd hc
    have h2 : parents (relabelDiag σ adj) j = ∅ := by
      rw [relabelDiag_parents, h1]
      simp
    have h3 : par adj (σ j) = σ j := by
      unfold par
      rw [h1]
      simp
    rw [h3]
    unfold par
    rw [h2]
    simp
  · have hs := parents_eq_singleton adj hd hc (σ j) hj
    have h2 : parents (relabelDiag σ adj) j = {σ.symm (par adj (σ j))} := by
      rw [relabelDiag_parents, hs]
      simp
    unfold par
    rw [h2, dif_pos (Finset.singleton_nonempty _)]
    exact Finset.min'_singleton _

lemma relabelDiag_valid (σ : Equiv.Perm (Fin K)) (hσ : σ 0 = 0) (adj : AdjM K)
    (hv : validTree adj) : validTree (relabelDiag σ adj) := by
  obtain ⟨hd, hc, hr⟩ := hv
  have hσ0 : σ.symm 0 = 0 := by
    apply σ.injective
    rw [σ.apply_symm_apply, hσ]
  have hiter : ∀ n (j : Fin K),
      (par (relabelDiag σ adj))^[n] j = σ.symm ((par adj)^[n] (σ j)) := by
    intro n
    induction n with
    | zero => intro j; simp
    | succ m ihm =>
      intro j
      rw [Function.iterate_succ_apply', Function.iterate_succ_apply', ihm,
        relabelDiag_par σ adj hd hc]
      congr 2
      simp
  refine ⟨fun i => by simp [relabelDiag], ⟨?_, ?_⟩, fun j => ?_⟩
  · rw [relabelDiag_colOneCount σ adj hd, hσ]
    exact hc.1
  · intro j hj
    rw [relabelDiag_colOneCount σ adj hd]
    apply hc.2
    intro he
    exact hj (σ.injective (he.trans hσ.symm))
  · obtain ⟨n, hn⟩ := hr (σ j)
    exact ⟨n, by rw [hiter, hn, hσ0]⟩

set_option maxRecDepth 4000 in
lemma permute_adj_swap_eq (adj : AdjM K) (A B : Fin K) (hB : B ≠ 0)
    (hanc : make_ancestral_from_adj adj B A = true) (hAB : A ≠ B)
    (hABedge : adj A B = false) :
    _permute_adj adj A B = relabelDiag (Equiv.swap A B) adj := by
  funext i j
  simp only [_permute_adj, if_neg hB, hanc, if_true, relabelDiag,
    Equiv.swap_apply_def]
  by_cases hij : i = j
  · simp [hij]
  · simp only [if_neg hij]
    clear hanc hB
    split_ifs <;> subst_vars <;> first | rfl | tauto | simp_all

lemma permute_adj_swap_valid (adj : AdjM K) (A B : Fin K) (hv : validTree adj)
    (hAB : A ≠ B) (hB : B ≠ 0)
    (hanc : make_ancestral_from_adj adj B A = true) :
    validTree (_permute_adj adj A B) := by
  have hisAnc : isAnc adj B A := (ancestral_iff_isAnc adj hv B A).1 hanc
  have hA0 : A ≠ 0 := by
    rintro rfl
    exact not_isAnc_to_root adj B hisAnc
  have hABedge : adj A B = false := by
    by_contra h
    have h1 : adj A B = true := by
      cases h2 : adj A B
      · exact absurd h2 h
      · rfl
    have h2 : isAnc adj A B := isParent_isAnc adj hv.1 hv.2.1 ⟨h1, hAB⟩
    exact isAnc_irrefl adj hv B (isAnc_trans adj hisAnc h2)
  rw [permute_adj_swap_eq adj A B hB hanc hAB hABedge]
  apply relabelDiag_valid _ _ adj hv
  exact Equiv.swap_apply_of_ne_of_ne (Ne.symm hA0) (Ne.symm hB)

end SwapLemmas

section ERealLemmas

lemma ereal_add_ne_top {x y : EReal} (hx : x ≠ ⊤) (hy : y ≠ ⊤) : x + y ≠ ⊤ := by
  induction x using EReal.rec with
  | h_bot => simp [EReal.bot_add]
  | h_real a =>
    induction y using EReal.rec with
    | h_bot => simp [EReal.add_bot]
    | h_real b =>
      rw [← EReal.coe_add]
      exact EReal.coe_ne_top _
    | h_top => exact absurd rfl hy
  | h_top => exact absurd rfl hx

lemma ereal_sum_ne_top {ι : Type} {s : Finset ι} {f : ι → EReal}
    (h : ∀ i ∈ s, f i ≠ ⊤) : (∑ i in s, f i) ≠ ⊤ := by
  induction s using Finset.cons_induction with
  | empty => simp
  | cons a t hat iht =>
    rw [Finset.sum_cons]
    exact ereal_add_ne_top (h a (Finset.mem_cons_self a t))
      (iht fun i hi => h i (Finset.mem_cons_of_mem hi))

lemma ereal_coe_sum {ι : Type} (s : Finset ι) (f : ι → ℝ) :
    ((∑ i in s, f i : ℝ) : EReal) = ∑ i in s, ((f i : ℝ) : EReal) := by
  induction s using Finset.cons_induction with
  | empty => simp
  | cons a t hat iht =>
    rw [Finset.sum_cons, Finset.sum_cons, ← iht, EReal.coe_add]

end ERealLemmas

section MetropolisLemmas

variable {A P Rg : Type}

lemma metropolisSteps_length (f : A → P → EReal) (g : A → P)
    (h : A → Rg → A × Rg) (u : Rg → ℝ × Rg) (n : ℕ) (s : (A × P × EReal) × Rg) :
    (metropolisSteps f g h u n s).1.length = n := by
  induction n generalizing s with
  | zero => rfl
  | succ m ihm =>
    simp only [metropolisSteps, List.length_cons]
    rw [ihm]

lemma metropolisSteps_rng (f : A → P → EReal) (g : A → P)
    (h : A → Rg → A × Rg) (u : Rg → ℝ × Rg) (n : ℕ) (s : (A × P × EReal) × Rg) :
    (metropolisSteps f g h u n s).2 = (metIter f g h u n s).2 := by
  induction n generalizing s with
  | zero => rfl
  | succ m ihm =>
    simp only [metropolisSteps, metIter, Function.iterate_succ_apply]
    exact ihm _

lemma metropolisSteps_getLastD (f : A → P → EReal) (g : A → P)
    (h : A → Rg → A × Rg) (u : Rg → ℝ × Rg) (n : ℕ) (s : (A × P × EReal) × Rg) :
    (metropolisSteps f g h u n s).1.getLastD s.1 = (metIter f g h u n s).1 := by
  induction n generalizing s with
  | zero => rfl
  | succ m ihm =>
    simp only [metropolisSteps, metIter, Function.iterate_succ_apply,
      List.getLastD_cons]
    exact ihm _

lemma metropolisSteps_invariant (f : A → P → EReal) (g : A → P)
    (h : A → Rg → A × Rg) (u : Rg → ℝ × Rg) (n : ℕ) (s : (A × P × EReal) × Rg)
    (hs : s.1.2.1 = g s.1.1 ∧ s.1.2.2 = f s.1.1 (g s.1.1)) :
    ∀ x ∈ (metropolisSteps f g h u n s).1,
      x.2.1 = g x.1 ∧ x.2.2 = f x.1 (g x.1) := by
  induction n generalizing s with
  | zero => intro x hx; simp [metropolisSteps] at hx
  | succ m ihm =>
    intro x hx
    simp only [metropolisSteps, List.mem_cons] at hx
    have hstep : (metStep f g h u s).1.2.1 = g (metStep f g h u s).1.1 ∧
        (metStep f g h u s).1.2.2 = f (metStep f g h u s).1.1 (g (metStep f g h u s).1.1) := by
      unfold metStep
      dsimp only
      split_ifs with hacc
      · exact ⟨rfl, rfl⟩
      · exact hs
    rcases hx with hx | hx
    · rw [hx]
      exact hstep
    · exact ihm (metStep f g h u s) hstep x hx

lemma _run_metropolis_length (n : ℕ) (init : A) (f : A → P → EReal) (g : A → P)
    (h : A → Rg → A × Rg) (u : Rg → ℝ × Rg) (rng : Rg) :
    (_run_metropolis n init f g h u rng).1.length = (n - 1) + 1 := by
  simp only [_run_metropolis, List.length_cons]
  rw [metropolisSteps_length]

lemma _run_metropolis_invariant (n : ℕ) (init : A) (f : A → P → EReal)
    (g : A → P) (h : A → Rg → A × Rg) (u : Rg → ℝ × Rg) (rng : Rg) :
    ∀ x ∈ (_run_metropolis n init f g h u rng).1,
      x.2.1 = g x.1 ∧ x.2.2 = f x.1 (g x.1) := by
  intro x hx
  simp only [_run_metropolis, List.mem_cons] at hx
  rcases hx with hx | hx
  · subst hx
    exact ⟨rfl, rfl⟩
  · exact metropolisSteps_invariant f g h u (n - 1) _ ⟨rfl, rfl⟩ x hx

end MetropolisLemmas

section ConstLemmas

lemma MIN_FLOAT_nonpos : MIN_FLOAT ≤ 0 := by
  unfold MIN_FLOAT
  rw [neg_nonpos]
  apply mul_nonneg
  · have h1 : (2:ℝ) ^ (-52 : ℤ) ≤ (2:ℝ) ^ (0 : ℤ) :=
      zpow_le_zpow_right₀ (by norm_num) (by norm_num)
    rw [zpow_zero] at h1
    linarith
  · positivity

lemma MIN_FLOAT_le_zero_ereal : ((MIN_FLOAT : ℝ) : EReal) ≤ (0 : EReal) := by
  rw [← EReal.coe_zero]
  exact EReal.coe_le_coe_iff.2 MIN_FLOAT_nonpos

lemma _EPSILON_pos : 0 < _EPSILON := by
  unfold _EPSILON
  norm_num

lemma _EPSILON_lt_one : _EPSILON < 1 := by
  unfold _EPSILON
  norm_num

end ConstLemmas

section ListLemmas

lemma list_mapM_some {α β : Type} (f : α → Option β) (g : α → β) :
    ∀ l : List α, (∀ a ∈ l, f a = some (g a)) → l.mapM f = some (l.map g) := by
  intro l
  induction l with
  | nil => intro _; rfl
  | cons a t iht =>
    intro h
    rw [List.mapM_cons, h a (List.mem_cons_self a t),
      iht fun b hb => h b (List.mem_cons_of_mem a hb)]
    rfl

lemma list_flatMap_length_const {α β : Type} (l : List α) (f : α → List β) (k : ℕ)
    (h : ∀ a ∈ l, (f a).length = k) : (l.flatMap f).length = l.length * k := by
  induction l with
  | nil => simp
  | cons a t iht =>
    rw [List.flatMap_cons, List.length_append, h a (List.mem_cons_self a t),
      iht fun b hb => h b (List.mem_cons_of_mem a hb), List.length_cons,
      Nat.succ_mul, Nat.add_comm]

end ListLemmas

section ChainLemmas

variable {K S M : ℕ} [NeZero K] {Rg : Type}

lemma _run_chain_eq (fit_phis : AdjM K → PhiM K S) (data_mutrel : Mutrel M)
    (V R : Fin (K - 1) → Fin S → ℤ) (cl : Fin M → Fin K)
    (nsamples tree_perturbations : ℕ) (seed : ℤ) (seedRng : ℤ → Rg)
    (choice2 : Rg → (Fin K × Fin K) × Rg) (uniform : Rg → ℝ × Rg)
    (h : nsamples ≠ 0) :
    _run_chain fit_phis data_mutrel V R cl nsamples tree_perturbations seed
        seedRng choice2 uniform =
      some (_run_metropolis nsamples (_init_cluster_adj_branching K)
        (__calc_llh_phi (calc_beta_params V R).1 (calc_beta_params V R).2) fit_phis
        (__permute_adj_multistep data_mutrel cl choice2 uniform tree_perturbations)
        uniform (seedRng (seed % 2 ^ 32))).1 := by
  unfold _run_chain
  rw [if_neg h]

lemma _run_chain_seed_congr (fit_phis : AdjM K → PhiM K S) (data_mutrel : Mutrel M)
    (V R : Fin (K - 1) → Fin S → ℤ) (cl : Fin M → Fin K)
    (nsamples tree_perturbations : ℕ) (s1 s2 : ℤ) (seedRng : ℤ → Rg)
    (choice2 : Rg → (Fin K × Fin K) × Rg) (uniform : Rg → ℝ × Rg)
    (h : s1 % 2 ^ 32 = s2 % 2 ^ 32) :
    _run_chain fit_phis data_mutrel V R cl nsamples tree_perturbations s1
        seedRng choice2 uniform =
      _run_chain fit_phis data_mutrel V R cl nsamples tree_perturbations s2
        seedRng choice2 uniform := by
  unfold _run_chain
  rw [h]

end ChainLemmas

lemma exAdj2_valid : validTree exAdj2 := by
  refine ⟨by decide, by decide, fun j => ?_⟩
  fin_cases j
  · exact ⟨0, by decide⟩
  · exact ⟨1, by decide⟩

/-- C3: for every adjacency satisfying the tree-validity invariants (diagonal
all 1, root column one 1-entry, other columns two 1-entries, acyclic
arborescence rooted at node 0) and every pair of distinct indices `A`, `B`,
the Tree Mutation Operator `_permute_adj` returns a matrix satisfying the same
invariants. -/
theorem claim_C3_mutation_preserves_invariants {K : ℕ} [NeZero K] (adj : AdjM K)
    (A B : Fin K) (hv : validTree adj) (hAB : A ≠ B) :
    validTree (_permute_adj adj A B) := by
  by_cases hB : B = 0
  · subst hB
    rw [permute_adj_root_target]
    exact hv
  · cases hanc : make_ancestral_from_adj adj B A with
    | false => exact permute_adj_move_valid adj A B hv hAB hB hanc
    | true => exact permute_adj_swap_valid adj A B hv hAB hB hanc

theorem claim_C3_witness : validTree (_permute_adj exAdj2 0 1) :=
  claim_C3_mutation_preserves_invariants exAdj2 0 1 exAdj2_valid (by decide)

/-- C6: whenever the drawn pair has `B` equal to the root index 0, the Tree
Mutation Operator returns an adjacency bit-identical to its input (a defined
no-op, not an error), for every valid tree adjacency. -/
theorem claim_C6_root_target_noop {K : ℕ} [NeZero K] (adj : AdjM K) (A : Fin K)
    (hv : validTree adj) : _permute_adj adj A 0 = adj :=
  permute_adj_root_target adj A

theorem claim_C6_witness : _permute_adj exAdj2 1 0 = exAdj2 :=
  claim_C6_root_target_noop exAdj2 1 exAdj2_valid

/-- C10: under the tree-validity precondition, the `assert anc[B,A]` in the
`B = 0` branch of `_permute_adj` can never fail: the root is a strict
ancestor of every node `A ≠ 0` (and `A ≠ B = 0` since the pair is drawn
without replacement), so the ancestral-closure entry `(0, A)` is always
`true`. -/
theorem claim_C10_root_assert_unreachable {K : ℕ} [NeZero K] (adj : AdjM K)
    (A : Fin K) (hv : validTree adj) (hA : A ≠ 0) :
    make_ancestral_from_adj adj 0 A = true :=
  isAnc_imp_ancestral adj hv (isAnc_root adj hv hA)

theorem claim_C10_witness : make_ancestral_from_adj exAdj2 0 1 = true :=
  claim_C10_root_assert_unreachable exAdj2 1 exAdj2_valid (by decide)

/-- C2 (amended): for every `nsteps` and input adjacency, the multistep
proposal `__permute_adj_multistep` performs exactly `nsteps - 1` (not
`nsteps`) iterations of the draw-mutate-accept step `metStep`, keyed on the
relation-fit (mutrel) log-likelihood with no phi computation, and returns the
final current tree and random state; the first of the `nsteps` requested inner
Metropolis samples is the unperturbed input tree. -/
theorem claim_C2_multistep_applies_pred_steps {K M : ℕ} [NeZero K] {Rg : Type}
    (data_mutrel : Mutrel M) (cl : Fin M → Fin K)
    (choice2 : Rg → (Fin K × Fin K) × Rg) (uniform : Rg → ℝ × Rg)
    (nsteps : ℕ) (oldadj : AdjM K) (rng : Rg) :
    __permute_adj_multistep data_mutrel cl choice2 uniform nsteps oldadj rng =
      ((metIter (__calc_llh_mutrel data_mutrel cl) __calc_phi_noop
          (permuteDraw choice2) uniform (nsteps - 1)
          ((oldadj, (), __calc_llh_mutrel data_mutrel cl oldadj ()), rng)).1.1,
        (metIter (__calc_llh_mutrel data_mutrel cl) __calc_phi_noop
          (permuteDraw choice2) uniform (nsteps - 1)
          ((oldadj, (), __calc_llh_mutrel data_mutrel cl oldadj ()), rng)).2) := by
  unfold __permute_adj_multistep _run_metropolis
  dsimp only
  rw [List.getLastD_cons, metropolisSteps_getLastD, metropolisSteps_rng]

/-- C2 (counterexample): with `tree_perturbations = 1`, the multistep proposal
applies the Tree Mutation Operator zero times — it returns the input tree and
leaves the random state untouched — even though a single application of the
operator at the pending draw `(0, 2)` would produce a different tree.  This
refutes "applies the operator exactly `tree_perturbations` times ... for every
tree_perturbations >= 1". -/
theorem claim_C2_counterexample :
    __permute_adj_multistep (fun _ _ _ => (0 : ℝ) : Mutrel 0)
        (fun i => i.elim0) exChoice2 exUniform 1 exChain3 0 = (exChain3, 0) ∧
      _permute_adj exChain3 (exChoice2 0).1.1 (exChoice2 0).1.2 ≠ exChain3 := by
  constructor
  · rfl
  · decide

/-- C4: the Metropolis step accepts exactly when
`new_llh - old_llh >= np.log(U)` — the accepted candidate triple replaces the
state and on rejection the previous triple is kept unchanged — and for finite
log-likelihoods with `new >= old` and `U` in `(0, 1]` the acceptance condition
always holds (so the candidate is accepted regardless of the draw). -/
theorem claim_C4_metropolis_acceptance {A P Rg : Type} (calc_llh : A → P → EReal)
    (calc_phi : A → P) (sample_adj : A → Rg → A × Rg) (uniform : Rg → ℝ × Rg)
    (old : (A × P × EReal) × Rg) (nA : A) (r1 : Rg) (U : ℝ) (r2 : Rg)
    (h1 : sample_adj old.1.1 old.2 = (nA, r1)) (h2 : uniform r1 = (U, r2)) :
    metStep calc_llh calc_phi sample_adj uniform old =
      ((if npLog U ≤ calc_llh nA (calc_phi nA) - old.1.2.2
          then (nA, calc_phi nA, calc_llh nA (calc_phi nA)) else old.1), r2) ∧
      (∀ lold lnew u2 : ℝ, lold ≤ lnew → 0 < u2 → u2 ≤ 1 →
        npLog u2 ≤ (lnew : EReal) - (lold : EReal)) := by
  constructor
  · unfold metStep
    dsimp only
    rw [h1]
    dsimp only
    rw [h2]
  · intro lold lnew u2 hle hu0 hu1
    unfold npLog
    rw [if_pos hu0, ← EReal.coe_sub]
    exact EReal.coe_le_coe_iff.2
      (le_trans (Real.log_nonpos (le_of_lt hu0) hu1) (by linarith))

theorem claim_C4_witness :
    npLog ((1 : ℝ) / 2) ≤ ((1 : ℝ) : EReal) - ((0 : ℝ) : EReal) :=
  (claim_C4_metropolis_acceptance (fun (_ : ℕ) (_ : Unit) => ((0 : ℝ) : EReal))
    (fun _ => ()) (fun a _ => (a, ())) (fun _ => (1 / 2, ()))
    ((0, (), ((0 : ℝ) : EReal)), ()) 0 () (1 / 2) () rfl rfl).2 0 1 (1 / 2)
    zero_le_one one_half_pos one_half_lt_one.le

section LlhLemmas

lemma calc_llh_phi_single_node {S : ℕ} (phi : PhiM 1 S)
    (alpha beta : Fin (1 - 1) → Fin S → ℝ) : _calc_llh_phi phi alpha beta = 0 := by
  haveI : IsEmpty (Fin (1 - 1)) := Fin.isEmpty
  unfold _calc_llh_phi
  rw [Finset.univ_eq_empty, Finset.sum_empty]
  exact max_eq_left MIN_FLOAT_le_zero_ereal

lemma npLog_of_floored {v : ℝ} :
    npLog (max _EPSILON v) = ((Real.log (max _EPSILON v) : ℝ) : EReal) := by
  unfold npLog
  rw [if_pos (lt_of_lt_of_le _EPSILON_pos (le_max_left _ _))]

lemma calc_llh_mutrel_finite {K M : ℕ} (adj : AdjM K) (data : Mutrel M)
    (cl : Fin M → Fin K) :
    _calc_llh_mutrel adj data cl ≠ ⊤ ∧ _calc_llh_mutrel adj data cl ≠ ⊥ := by
  have h1 : _calc_llh_mutrel adj data cl =
      ((∑ i : Fin M, ∑ j : Fin M, ∑ r : Fin 4,
        Real.log (max _EPSILON
          (1 - |data i j r - make_mutrel_tensor_from_cluster_adj adj cl i j r|)) : ℝ) : EReal) := by
    unfold _calc_llh_mutrel
    rw [ereal_coe_sum]
    refine Finset.sum_congr rfl fun i _ => ?_
    rw [ereal_coe_sum]
    refine Finset.sum_congr rfl fun j _ => ?_
    rw [ereal_coe_sum]
    refine Finset.sum_congr rfl fun r _ => npLog_of_floored
  rw [h1]
  exact ⟨EReal.coe_ne_top _, EReal.coe_ne_bot _⟩

lemma betaLogpdf_ne_top {x a b : ℝ} (ha : 1 ≤ a) (hb : 1 ≤ b) :
    betaLogpdf x a b ≠ ⊤ := by
  unfold betaLogpdf
  split_ifs with h
  · exact bot_ne_top
  · apply ereal_add_ne_top
    · apply ereal_add_ne_top
      · unfold npXlogy
        split_ifs with h1 h2 h3
        · exact (by simp : (0 : EReal) ≠ ⊤)
        · exact EReal.coe_ne_top _
        · linarith
        · exact bot_ne_top
      · unfold npXlogy
        split_ifs with h1 h2 h3
        · exact (by simp : (0 : EReal) ≠ ⊤)
        · exact EReal.coe_ne_top _
        · linarith
        · exact bot_ne_top
    · exact EReal.coe_ne_top _

end LlhLemmas

/-- C9: for a single-node tree (`K = 1`, only the root, so no supervariants
and no mutations), the fraction-fit term of the Likelihood Evaluator is
exactly 0 (empty sum, unaffected by the `MIN_FLOAT` clamp since
`0 > MIN_FLOAT`), the relation-fit term over the empty tensor is 0, and their
sum is exactly 0. -/
theorem claim_C9_single_node_llh_zero {S : ℕ} (phi : PhiM 1 S)
    (hphi : ∀ s, phi 0 s = 1) (alpha beta : Fin (1 - 1) → Fin S → ℝ)
    (adj : AdjM 1) (data : Mutrel 0) (cl : Fin 0 → Fin 1) :
    _calc_llh_phi phi alpha beta = 0 ∧ _calc_llh_mutrel adj data cl = 0 ∧
      _calc_llh_phi phi alpha beta + _calc_llh_mutrel adj data cl = 0 := by
  have h1 := calc_llh_phi_single_node phi alpha beta
  have h2 : _calc_llh_mutrel adj data cl = 0 := by
    unfold _calc_llh_mutrel
    rw [Finset.univ_eq_empty, Finset.sum_empty]
  refine ⟨h1, h2, ?_⟩
  rw [h1, h2, add_zero]

theorem claim_C9_witness :
    _calc_llh_phi exPhi1 (fun k _ => k.elim0) (fun k _ => k.elim0) = 0 ∧
      _calc_llh_mutrel (K := 1) (M := 0) (fun _ _ => true) (fun _ _ _ => (0 : ℝ))
        (fun i => i.elim0) = 0 ∧
      _calc_llh_phi exPhi1 (fun k _ => k.elim0) (fun k _ => k.elim0) +
        _calc_llh_mutrel (K := 1) (M := 0) (fun _ _ => true) (fun _ _ _ => (0 : ℝ))
          (fun i => i.elim0) = 0 :=
  claim_C9_single_node_llh_zero exPhi1 (fun _ => rfl) (fun k _ => k.elim0)
    (fun k _ => k.elim0) (fun _ _ => true) (fun _ _ _ => (0 : ℝ))
    (fun i => i.elim0)

/-- C1 (amended): the log-likelihood that the outer Metropolis acceptance test
of `_run_chain` is keyed on is the fraction-fit (Beta) log-likelihood
`_calc_llh_phi` alone — every sample triple in a chain's output carries
exactly `_calc_llh_phi(phi, alpha, beta)` as its log-likelihood; the
relation-fit term is not added to it. -/
theorem claim_C1_acceptance_keyed_on_phi_llh {K S M : ℕ} [NeZero K] {Rg : Type}
    (fit_phis : AdjM K → PhiM K S) (data_mutrel : Mutrel M)
    (V R : Fin (K - 1) → Fin S → ℤ) (cl : Fin M → Fin K)
    (nsamples tree_perturbations : ℕ) (seed : ℤ) (seedRng : ℤ → Rg)
    (choice2 : Rg → (Fin K × Fin K) × Rg) (uniform : Rg → ℝ × Rg)
    (l : List (AdjM K × PhiM K S × EReal))
    (h : _run_chain fit_phis data_mutrel V R cl nsamples tree_perturbations
        seed seedRng choice2 uniform = some l) :
    ∀ x ∈ l, x.2.2 =
      _calc_llh_phi x.2.1 (calc_beta_params V R).1 (calc_beta_params V R).2 := by
  by_cases hn : nsamples = 0
  · subst hn
    unfold _run_chain at h
    rw [if_pos rfl] at h
    simp at h
  · rw [_run_chain_eq fit_phis data_mutrel V R cl nsamples tree_perturbations
      seed seedRng choice2 uniform hn] at h
    injection h with h
    subst h
    intro x hx
    have hinv := _run_metropolis_invariant nsamples (_init_cluster_adj_branching K)
      (__calc_llh_phi (calc_beta_params V R).1 (calc_beta_params V R).2) fit_phis
      (__permute_adj_multistep data_mutrel cl choice2 uniform tree_perturbations)
      uniform (seedRng (seed % 2 ^ 32)) x hx
    rw [hinv.2, hinv.1]
    rfl

theorem claim_C1_witness :
    ((_init_cluster_adj_branching 1, exFit1 (_init_cluster_adj_branching 1),
        __calc_llh_phi
          (calc_beta_params (fun k _ => k.elim0) (fun k _ => k.elim0)).1
          (calc_beta_params (fun k _ => k.elim0) (fun k _ => k.elim0)).2
          (_init_cluster_adj_branching 1)
          (exFit1 (_init_cluster_adj_branching 1))) :
        AdjM 1 × PhiM 1 1 × EReal).2.2 =
      _calc_llh_phi
        (_init_cluster_adj_branching 1, exFit1 (_init_cluster_adj_branching 1),
          __calc_llh_phi
            (calc_beta_params (fun k _ => k.elim0) (fun k _ => k.elim0)).1
            (calc_beta_params (fun k _ => k.elim0) (fun k _ => k.elim0)).2
            (_init_cluster_adj_branching 1)
            (exFit1 (_init_cluster_adj_branching 1))).2.1
        (calc_beta_params (fun k _ => k.elim0) (fun k _ => k.elim0)).1
        (calc_beta_params (fun k _ => k.elim0) (fun k _ => k.elim0)).2 :=
  claim_C1_acceptance_keyed_on_phi_llh exFit1 (fun _ _ _ => (0 : ℝ))
    (fun k _ => k.elim0) (fun k _ => k.elim0) (fun i => i.elim0) 1 1 0
    exSeedRng exChoice2u exUniformu _ rfl _ (List.mem_singleton_self _)


/-- C1 (counterexample): at a concrete one-node, one-mutation input whose
observed relation tensor disagrees with the tree-derived tensor, the
log-likelihood used by the outer acceptance test (`__calc_llh_phi`, here `0`)
differs from the sum of the fraction-fit and relation-fit log-likelihoods
(here `0 + log 1e-20 < 0`), refuting the claim that the acceptance test is
keyed on the sum of both sub-scores. -/
theorem claim_C1_counterexample :
    __calc_llh_phi (K := 1) (S := 1) (fun k _ => k.elim0) (fun k _ => k.elim0)
        (fun _ _ => true) exPhi1 ≠
      _calc_llh_phi exPhi1 (fun k _ => k.elim0) (fun k _ => k.elim0) +
        _calc_llh_mutrel (K := 1) (M := 1) (fun _ _ => true) exData1
          (fun _ => 0) := by
  have h1 : __calc_llh_phi (K := 1) (S := 1) (fun k _ => k.elim0)
      (fun k _ => k.elim0) (fun _ _ => true) exPhi1 = 0 :=
    calc_llh_phi_single_node exPhi1 _ _
  have h2 : _calc_llh_phi exPhi1 (fun k _ => (k.elim0 : ℝ))
      (fun k _ => k.elim0) = 0 :=
    calc_llh_phi_single_node exPhi1 _ _
  have hterm0 : npLog (max _EPSILON (1 - |(0 : ℝ) - 1|)) =
      ((Real.log _EPSILON : ℝ) : EReal) := by
    have hv : (1 : ℝ) - |(0 : ℝ) - 1| = 0 := by norm_num
    rw [hv, max_eq_left _EPSILON_pos.le]
    unfold npLog
    rw [if_pos _EPSILON_pos]
  have hterm1 : npLog (max _EPSILON (1 - |(0 : ℝ) - 0|)) = 0 := by
    have hv : (1 : ℝ) - |(0 : ℝ) - 0| = 1 := by norm_num
    rw [hv, max_eq_right _EPSILON_lt_one.le]
    unfold npLog
    rw [if_pos one_pos, Real.log_one, EReal.coe_zero]
  have h3 : _calc_llh_mutrel (K := 1) (M := 1) (fun _ _ => true) exData1
      (fun _ => 0) = ((Real.log _EPSILON : ℝ) : EReal) := by
    unfold _calc_llh_mutrel
    rw [Fin.sum_univ_one, Fin.sum_univ_one, Fin.sum_univ_four]
    have hrel : relOf (K := 1) (M := 1) (fun _ _ => true) (fun _ => 0) 0 0 = 0 := rfl
    have htensor : ∀ r : Fin 4,
        make_mutrel_tensor_from_cluster_adj (K := 1) (M := 1) (fun _ _ => true)
          (fun _ => (0 : Fin 1)) 0 0 r = if r = 0 then 1 else 0 := by
      intro r
      unfold make_mutrel_tensor_from_cluster_adj
      rw [hrel]
    have hdata : ∀ r : Fin 4, exData1 0 0 r = 0 := fun _ => rfl
    rw [htensor 0, htensor 1, htensor 2, htensor 3, hdata 0, hdata 1, hdata 2,
      hdata 3, if_pos rfl, if_neg (by decide), if_neg (by decide),
      if_neg (by decide), hterm0, hterm1, add_zero, add_zero, add_zero]
  rw [h1, h2, h3, zero_add]
  intro hc
  have hlog : Real.log _EPSILON = 0 := by
    have hc2 := hc.symm
    rw [← EReal.coe_zero, EReal.coe_eq_coe_iff] at hc2
    exact hc2
  exact absurd hlog (Real.log_neg _EPSILON_pos _EPSILON_lt_one).ne

/-- C5 (amended): for `nchains >= 1` and `trees_per_chain + burnin_per_chain
>= 1`, every chain `C` produces exactly `trees_per_chain + burnin_per_chain`
samples from seed `seed + C + 1`, and the orchestrator's merged output drops
exactly the first `burnin_per_chain` samples of each chain and concatenates
the remainders in chain-index order, yielding exactly
`nchains * trees_per_chain` merged samples.  (With
`trees_per_chain = burnin_per_chain = 0` the code instead fails its
`assert nsamples > 0`; see the counterexample.) -/
theorem claim_C5_burnin_merge {K S M : ℕ} [NeZero K] {Rg : Type}
    (fit_phis : AdjM K → PhiM K S) (data_mutrel : Mutrel M)
    (V R : Fin (K - 1) → Fin S → ℤ) (cl : Fin M → Fin K)
    (trees_per_chain burnin_per_chain nchains tree_perturbations : ℕ)
    (seed : ℤ) (seedRng : ℤ → Rg) (choice2 : Rg → (Fin K × Fin K) × Rg)
    (uniform : Rg → ℝ × Rg) (hn : nchains ≠ 0)
    (ht : trees_per_chain + burnin_per_chain ≠ 0) :
    ∃ chains : ℕ → List (AdjM K × PhiM K S × EReal),
      (∀ C : ℕ, _run_chain fit_phis data_mutrel V R cl
          (trees_per_chain + burnin_per_chain) tree_perturbations
          (seed + C + 1) seedRng choice2 uniform = some (chains C)) ∧
      (∀ C : ℕ, (chains C).length = trees_per_chain + burnin_per_chain) ∧
      sample_trees fit_phis data_mutrel V R cl trees_per_chain
          burnin_per_chain nchains tree_perturbations seed seedRng choice2
          uniform =
        some ((List.range nchains).flatMap fun C =>
          (chains C).drop burnin_per_chain) ∧
      ((List.range nchains).flatMap fun C =>
          (chains C).drop burnin_per_chain).length =
        nchains * trees_per_chain := by
  refine ⟨fun C => (_run_metropolis (trees_per_chain + burnin_per_chain)
      (_init_cluster_adj_branching K)
      (__calc_llh_phi (calc_beta_params V R).1 (calc_beta_params V R).2)
      fit_phis
      (__permute_adj_multistep data_mutrel cl choice2 uniform
        tree_perturbations) uniform
      (seedRng ((seed + C + 1) % 2 ^ 32))).1, ?_, ?_, ?_, ?_⟩
  · intro C
    exact _run_chain_eq fit_phis data_mutrel V R cl _ tree_perturbations
      (seed + C + 1) seedRng choice2 uniform ht
  · intro C
    rw [_run_metropolis_length]
    omega
  · unfold sample_trees
    rw [if_neg hn]
    rw [list_mapM_some _ _ (List.range nchains) fun C _ =>
      _run_chain_eq fit_phis data_mutrel V R cl _ tree_perturbations
        (seed + C + 1) seedRng choice2 uniform ht]
    rw [Option.map_some', List.flatMap_map]
  · rw [list_flatMap_length_const _ _ trees_per_chain fun C _ => by
      rw [List.length_drop, _run_metropolis_length]; omega]
    rw [List.length_range]

/-- C5 (counterexample): with `nchains = 1`, `trees_per_chain = 0`,
`burnin_per_chain = 0` — values the claim quantifies over — the per-chain
`assert nsamples > 0` fails (modelled as `none`) instead of yielding the
claimed empty merged sample list. -/
theorem claim_C5_counterexample :
    sample_trees (K := 1) (S := 1) (M := 0) exFit1 (fun _ _ _ => (0 : ℝ))
      (fun k _ => k.elim0) (fun k _ => k.elim0) (fun i => i.elim0)
      0 0 1 1 0 exSeedRng exChoice2u exUniformu = none := rfl

theorem claim_C5_witness :
    (sample_trees (K := 1) (S := 1) (M := 0) exFit1 (fun _ _ _ => (0 : ℝ))
      (fun k _ => k.elim0) (fun k _ => k.elim0) (fun i => i.elim0)
      1 0 1 1 0 exSeedRng exChoice2u exUniformu).isSome = true := by
  obtain ⟨chains, h1, h2, h3, h4⟩ := claim_C5_burnin_merge (K := 1) (S := 1)
    (M := 0) exFit1 (fun _ _ _ => (0 : ℝ)) (fun k _ => k.elim0)
    (fun k _ => k.elim0) (fun i => i.elim0) 1 0 1 1 0 exSeedRng exChoice2u
    exUniformu (by decide) (by decide)
  rw [h3]
  rfl

/-- C7: chain-seed derivation and determinism.  (a) `_run_chain` is a pure
function of its inputs whose only use of the seed is `np.random.seed(seed %
2**32)`: any two seeds congruent modulo `2^32` produce identical sample
sequences (and equal inputs trivially do).  (b) In `sample_trees`, chain `C`'s
contribution is exactly the `_run_chain` output for derived seed
`(base_seed + C + 1)` reduced modulo `2^32`. -/
theorem claim_C7_seed_derivation_determinism {K S M : ℕ} [NeZero K] {Rg : Type}
    (fit_phis : AdjM K → PhiM K S) (data_mutrel : Mutrel M)
    (V R : Fin (K - 1) → Fin S → ℤ) (cl : Fin M → Fin K)
    (trees_per_chain burnin_per_chain nchains tree_perturbations : ℕ)
    (seed : ℤ) (seedRng : ℤ → Rg) (choice2 : Rg → (Fin K × Fin K) × Rg)
    (uniform : Rg → ℝ × Rg) (hn : nchains ≠ 0)
    (ht : trees_per_chain + burnin_per_chain ≠ 0) :
    (∀ (nsamples : ℕ) (s1 s2 : ℤ), s1 % 2 ^ 32 = s2 % 2 ^ 32 →
      _run_chain fit_phis data_mutrel V R cl nsamples tree_perturbations s1
          seedRng choice2 uniform =
        _run_chain fit_phis data_mutrel V R cl nsamples tree_perturbations s2
          seedRng choice2 uniform) ∧
    sample_trees fit_phis data_mutrel V R cl trees_per_chain burnin_per_chain
        nchains tree_perturbations seed seedRng choice2 uniform =
      some ((List.range nchains).flatMap fun C =>
        ((_run_chain fit_phis data_mutrel V R cl
            (trees_per_chain + burnin_per_chain) tree_perturbations
            ((seed + C + 1) % 2 ^ 32) seedRng choice2 uniform).getD []).drop
          burnin_per_chain) := by
  constructor
  · intro nsamples s1 s2 h
    exact _run_chain_seed_congr fit_phis data_mutrel V R cl nsamples
      tree_perturbations s1 s2 seedRng choice2 uniform h
  · have hfun : (fun C : ℕ =>
        ((_run_chain fit_phis data_mutrel V R cl
            (trees_per_chain + burnin_per_chain) tree_perturbations
            ((seed + C + 1) % 2 ^ 32) seedRng choice2 uniform).getD []).drop
          burnin_per_chain) =
        fun C : ℕ => ((_run_metropolis (trees_per_chain + burnin_per_chain)
          (_init_cluster_adj_branching K)
          (__calc_llh_phi (calc_beta_params V R).1 (calc_beta_params V R).2)
          fit_phis
          (__permute_adj_multistep data_mutrel cl choice2 uniform
            tree_perturbations) uniform
          (seedRng ((seed + C + 1) % 2 ^ 32))).1).drop burnin_per_chain := by
      funext C
      rw [_run_chain_eq fit_phis data_mutrel V R cl _ tree_perturbations
        ((seed + C + 1) % 2 ^ 32) seedRng choice2 uniform ht,
        Option.getD_some, Int.emod_emod_of_dvd _ dvd_rfl]
    rw [hfun]
    unfold sample_trees
    rw [if_neg hn]
    rw [list_mapM_some _ _ (List.range nchains) fun C _ =>
      _run_chain_eq fit_phis data_mutrel V R cl _ tree_perturbations
        (seed + C + 1) seedRng choice2 uniform ht]
    rw [Option.map_some', List.flatMap_map]

theorem claim_C7_witness :
    _run_chain (K := 1) (S := 1) (M := 0) exFit1 (fun _ _ _ => (0 : ℝ))
        (fun k _ => k.elim0) (fun k _ => k.elim0) (fun i => i.elim0) 1 1
        (1 : ℤ) exSeedRng exChoice2u exUniformu =
      _run_chain (K := 1) (S := 1) (M := 0) exFit1 (fun _ _ _ => (0 : ℝ))
        (fun k _ => k.elim0) (fun k _ => k.elim0) (fun i => i.elim0) 1 1
        (1 + 2 ^ 32 : ℤ) exSeedRng exChoice2u exUniformu :=
  (claim_C7_seed_derivation_determinism (K := 1) (S := 1) (M := 0) exFit1
    (fun _ _ _ => (0 : ℝ)) (fun k _ => k.elim0) (fun k _ => k.elim0)
    (fun i => i.elim0) 1 0 1 1 0 exSeedRng exChoice2u exUniformu (by decide)
    (by decide)).1 1 1 (1 + 2 ^ 32) (by decide)

/-- C8 (amended): with Beta shape parameters all `>= 1` — which
`calc_beta_params` always produces from nonnegative read counts (`alpha = 2V +
1 >= 1`, `beta = max 1 (R - V + 1) >= 1`) — the fraction-fit log-likelihood is
never `+inf` and is clamped below at the finite floor `MIN_FLOAT` (so never
`-inf`), and the relation-fit sum of logs of epsilon-floored fit values is
always finite.  (For merely strictly positive parameters the claim fails: see
the counterexample with `alpha = 1/2`.) -/
theorem claim_C8_llh_never_top {K S M n T : ℕ} (phi : PhiM K S)
    (alpha beta : Fin (K - 1) → Fin S → ℝ)
    (ha : ∀ k s, 1 ≤ alpha k s) (hb : ∀ k s, 1 ≤ beta k s)
    (adj : AdjM K) (data : Mutrel M) (cl : Fin M → Fin K)
    (V R : Fin n → Fin T → ℤ) (hV : ∀ k s, 0 ≤ V k s) :
    (_calc_llh_phi phi alpha beta ≠ ⊤ ∧
      ((MIN_FLOAT : ℝ) : EReal) ≤ _calc_llh_phi phi alpha beta) ∧
    (_calc_llh_mutrel adj data cl ≠ ⊤ ∧ _calc_llh_mutrel adj data cl ≠ ⊥) ∧
    (∀ k s, 1 ≤ (calc_beta_params V R).1 k s ∧
      1 ≤ (calc_beta_params V R).2 k s) := by
  refine ⟨⟨?_, le_max_right _ _⟩, calc_llh_mutrel_finite adj data cl, ?_⟩
  · unfold _calc_llh_phi
    rcases max_choice (∑ k : Fin (K - 1), ∑ s : Fin S,
        betaLogpdf (phi (liftIdx k) s) (alpha k s) (beta k s))
      (((MIN_FLOAT : ℝ) : EReal)) with h | h <;> rw [h]
    · exact ereal_sum_ne_top fun k _ => ereal_sum_ne_top fun s _ =>
        betaLogpdf_ne_top (ha k s) (hb k s)
    · exact EReal.coe_ne_top _
  · intro k s
    constructor
    · unfold calc_beta_params
      dsimp only
      have h0 : (0 : ℝ) ≤ (V k s : ℝ) := by exact_mod_cast hV k s
      linarith
    · exact le_max_left 1 _

theorem claim_C8_witness :
    ((_calc_llh_phi exPhi2 (fun _ _ => 1) (fun _ _ => 1) ≠ ⊤ ∧
      ((MIN_FLOAT : ℝ) : EReal) ≤
        _calc_llh_phi exPhi2 (fun _ _ => 1) (fun _ _ => 1)) ∧
    (_calc_llh_mutrel (K := 2) (M := 0) (fun _ _ => true) (fun _ _ _ => 0)
        (fun i => i.elim0) ≠ ⊤ ∧
      _calc_llh_mutrel (K := 2) (M := 0) (fun _ _ => true) (fun _ _ _ => 0)
        (fun i => i.elim0) ≠ ⊥) ∧
    (∀ k s, 1 ≤ (calc_beta_params (fun (_ : Fin 1) (_ : Fin 1) => (0 : ℤ))
        (fun _ _ => 0)).1 k s ∧
      1 ≤ (calc_beta_params (fun (_ : Fin 1) (_ : Fin 1) => (0 : ℤ))
        (fun _ _ => 0)).2 k s)) :=
  claim_C8_llh_never_top exPhi2 (fun _ _ => 1) (fun _ _ => 1)
    (fun _ _ => le_refl 1) (fun _ _ => le_refl 1) (fun _ _ => true)
    (fun _ _ _ => 0) (fun i => i.elim0) (fun _ _ => 0) (fun _ _ => 0)
    (fun _ _ => le_refl 0)

/-- C8 (counterexample): for the strictly positive shape parameter
`alpha = 1/2 < 1` and a phi value of `0`, the Beta log-density is `+inf`, the
clamp `max(_, MIN_FLOAT)` does not remove it, and `_calc_llh_phi` returns
`+inf` — refuting "finite for every phi matrix and strictly positive Beta
shape parameters". -/
theorem claim_C8_counterexample :
    (0 < exAlphaHalf 0 0 ∧ 0 < exBetaOne 0 0) ∧
      _calc_llh_phi exPhi2 exAlphaHalf exBetaOne = ⊤ := by
  refine ⟨⟨by unfold exAlphaHalf; norm_num, by unfold exBetaOne; norm_num⟩, ?_⟩
  unfold _calc_llh_phi
  have hsum : (∑ k : Fin (2 - 1), ∑ s : Fin 1,
      betaLogpdf (exPhi2 (liftIdx k) s) (exAlphaHalf k s) (exBetaOne k s)) =
      betaLogpdf (exPhi2 (liftIdx 0) 0) (exAlphaHalf 0 0) (exBetaOne 0 0) := by
    show (∑ k : Fin 1, ∑ s : Fin 1,
      betaLogpdf (exPhi2 (liftIdx k) s) (exAlphaHalf k s) (exBetaOne k s)) = _
    rw [Fin.sum_univ_one, Fin.sum_univ_one]
  rw [hsum]
  have hphi : exPhi2 (liftIdx 0) 0 = 0 := by
    unfold exPhi2
    rw [if_neg (by decide)]
  have hab : exAlphaHalf 0 0 = 1 / 2 := rfl
  have hbb : exBetaOne 0 0 = 1 := rfl
  rw [hphi, hab, hbb]
  unfold betaLogpdf
  rw [if_neg (by norm_num)]
  have hx1 : npXlogy (1 / 2 - 1) 0 = ⊤ := by
    unfold npXlogy
    rw [if_neg (by norm_num), if_neg (by norm_num), if_pos (by norm_num)]
  have hx2 : npXlogy (1 - 1 : ℝ) (1 - 0) = 0 := by
    unfold npXlogy
    rw [if_pos (by norm_num)]
  rw [hx1, hx2, add_zero, EReal.top_add_of_ne_bot (EReal.coe_ne_bot _)]
  exact max_eq_left le_top

theorem claim_C2_witness :
    __permute_adj_multistep (K := 3) (M := 0) (fun _ _ _ => (0 : ℝ))
        (fun i => i.elim0) exChoice2 exUniform 3 exChain3 0 =
      ((metIter (__calc_llh_mutrel (fun _ _ _ => (0 : ℝ)) (fun i => i.elim0))
          __calc_phi_noop (permuteDraw exChoice2) exUniform (3 - 1)
          ((exChain3, (), __calc_llh_mutrel (fun _ _ _ => (0 : ℝ))
              (fun i => i.elim0) exChain3 ()), 0)).1.1,
        (metIter (__calc_llh_mutrel (fun _ _ _ => (0 : ℝ)) (fun i => i.elim0))
          __calc_phi_noop (permuteDraw exChoice2) exUniform (3 - 1)
          ((exChain3, (), __calc_llh_mutrel (fun _ _ _ => (0 : ℝ))
              (fun i => i.elim0) exChain3 ()), 0)).2) :=
  claim_C2_multistep_applies_pred_steps (fun _ _ _ => (0 : ℝ))
    (fun i => i.elim0) exChoice2 exUniform 3 exChain3 0
